import Mathlib

/-!
Verification of the training script of `chainer-glow` (files `run/optimizer.py`
and `run/train.py`) against its natural-language specification.

The numeric values of the Python code (floats) are modelled as exact rationals
(`ℚ`): every claim under study is an algebraic or structural property of the
formulas, not a floating-point rounding property.  Values produced by the
external chainer / numpy framework (`gaussian_nll`, `gaussian_kl_divergence`,
`math.log`, the model's log-determinant) are taken as opaque rational
parameters; everything implemented in the repository itself is translated
definition by definition.

The file is organised as: all definitions, then helper lemmas, then the
theorems about the claims of the specification.
-/

/-! ## Definitions from `run/optimizer.py` -/

/-- Method `Optimizer.mu_s` (optimizer.py lines 35-43): the cyclical
(triangular) learning-rate schedule.  `training_step % n` is Python integer
`%`; the comparison `step_in_cycle_num < self.n / 2` and the arithmetic are
carried out with true division, modelled in `ℚ`. -/
def mu_s (mu_i mu_f : ℚ) (n : ℕ) (training_step : ℕ) : ℚ :=
  let step_in_cycle_num : ℕ := training_step % n
  if (step_in_cycle_num : ℚ) < (n : ℚ) / 2 then
    mu_f + (mu_i - mu_f) * 2 * ((step_in_cycle_num : ℚ) / (n : ℚ))
  else
    mu_f + (mu_i - mu_f) * 2 * (1 - (step_in_cycle_num : ℚ) / (n : ℚ))

/-- Default value `mu_i=3.0 * 1e-3` of `Optimizer.__init__`. -/
def default_mu_i : ℚ := 3 / 1000

/-- Default value `mu_f=1.0 * 1e-4` of `Optimizer.__init__`. -/
def default_mu_f : ℚ := 1 / 10000

/-- Default value `n=10000` of `Optimizer.__init__`. -/
def default_n : ℕ := 10000

/-- The observable state of the `Optimizer` wrapper object: its schedule
parameters, the learning rate `alpha` held by the wrapped chainer `Adam`
optimizer (read back by the `learning_rate` property), and the number of Adam
steps the wrapped optimizer has performed (the effect of
`self.optimizer.update()`, which lives in the external framework and is
counted abstractly). -/
structure Optimizer where
  mu_i : ℚ
  mu_f : ℚ
  n : ℕ
  alpha : ℚ
  adamSteps : ℕ
deriving DecidableEq, Repr

/-- Constructor `Optimizer.__init__` (optimizer.py lines 7-29): computes
`lr = self.mu_s(0)` and constructs `optimizers.Adam(lr, ...)`, so the Adam
learning rate starts at `mu_s(0)`; no Adam step has been taken yet. -/
def Optimizer.construct (mu_i mu_f : ℚ) (n : ℕ) : Optimizer :=
  { mu_i := mu_i, mu_f := mu_f, n := n
    alpha := mu_s mu_i mu_f n 0
    adamSteps := 0 }

/-- The two side effects `Optimizer.update` can perform, in order:
a step of the wrapped Adam optimizer (`self.optimizer.update()`), and a write
of the learning rate (`self.optimizer.hyperparam.alpha = v`, performed by
`anneal_learning_rate`). -/
inductive OptEvent where
  | adamUpdate : OptEvent
  | setAlpha : ℚ → OptEvent
deriving DecidableEq, Repr

/-- Effect of one event on the optimizer state. -/
def Optimizer.applyEvent (o : Optimizer) : OptEvent → Optimizer
  | OptEvent.adamUpdate => { o with adamSteps := o.adamSteps + 1 }
  | OptEvent.setAlpha v => { o with alpha := v }

/-- The sequence of side effects of `Optimizer.update(training_step)`
(optimizer.py lines 48-50): first `self.optimizer.update()`, then
`self.anneal_learning_rate(training_step)` which assigns
`self.optimizer.hyperparam.alpha = self.mu_s(training_step)`. -/
def Optimizer.updateEvents (o : Optimizer) (training_step : ℕ) : List OptEvent :=
  [OptEvent.adamUpdate, OptEvent.setAlpha (mu_s o.mu_i o.mu_f o.n training_step)]

/-- Method `Optimizer.update(training_step)`: the state after performing the
two side effects in order. -/
def Optimizer.update (o : Optimizer) (training_step : ℕ) : Optimizer :=
  (o.updateEvents training_step).foldl Optimizer.applyEvent o

/-! ## Definitions from `run/train.py`: per-batch loss (lines 178-192)

Functions `cf.gaussian_nll(zi, mean, ln_var)` and
`cf.gaussian_kl_divergence(mean, ln_var)` are chainer functions; their values
on the i-th factorized component are taken as an opaque pair of rationals.
`math.log 2.0` and `math.log num_bins_x` are opaque rationals `ln2` and
`lnNumBins`. -/

/-- The accumulation loop over `factorized_z_distribution` (train.py lines
184-189): starting from `kld = 0` and `negative_log_likelihood = 0`, each
component adds its `gaussian_nll` value to the likelihood accumulator, and its
`gaussian_kl_divergence` value to `kld` only when `--regularize_z` is set.
The pair is `(negative_log_likelihood, kld)`. -/
def nllKldLoop (regularize_z : Bool) (factorized : List (ℚ × ℚ)) : ℚ × ℚ :=
  factorized.foldl
    (fun acc c =>
      (acc.1 + c.1, if regularize_z then acc.2 + c.2 else acc.2))
    (0, 0)

/-- The per-batch loss (train.py lines 178-192): with
`denom = ln2 * num_pixels` and
`logdet = logdet_fwd - lnNumBins * num_pixels`, the loss is
`((negative_log_likelihood + kld) / batch_size - logdet) / denom`. -/
def batchLoss (regularize_z : Bool) (factorized : List (ℚ × ℚ))
    (logdet_fwd batch_size num_pixels ln2 lnNumBins : ℚ) : ℚ :=
  let denom := ln2 * num_pixels
  let logdet := logdet_fwd - lnNumBins * num_pixels
  let acc := nllKldLoop regularize_z factorized
  ((acc.1 + acc.2) / batch_size - logdet) / denom

/-! ## Definitions from `run/train.py`: checkpointing in the training loop
(lines 168-222) -/

/-- Observable events of the training loop, in program order: processing of
batch number `b` (the body of the inner loop up to the progress print),
the end-of-iteration summary print (train.py lines 215-221), and a call to
`encoder.save(args.snapshot_path)`. -/
inductive TrainEvent where
  | batchStep : ℕ → TrainEvent
  | iterSummary : TrainEvent
  | save : TrainEvent
deriving DecidableEq, Repr

/-- Events of one pass of the inner loop body for `batch_index = b`
(train.py lines 174-213): the batch is processed, then
`if (batch_index + 1) % 100 == 0: encoder.save(...)`. -/
def batchEvents (b : ℕ) : List TrainEvent :=
  TrainEvent.batchStep b ::
    (if (b + 1) % 100 = 0 then [TrainEvent.save] else [])

/-- Events of one iteration of the outer loop (train.py lines 168-222):
all `num_batches` inner passes, then the summary print, then
`encoder.save(args.snapshot_path)` (line 222). -/
def iterationTrace (num_batches : ℕ) : List TrainEvent :=
  (List.range num_batches).flatMap batchEvents
    ++ [TrainEvent.iterSummary, TrainEvent.save]

/-- Events of the whole training loop: `total_iteration` iterations. -/
def trainTrace (total_iteration num_batches : ℕ) : List TrainEvent :=
  (List.range total_iteration).flatMap (fun _ => iterationTrace num_batches)

/-- The batch indices that are immediately followed by a checkpoint in a
trace: `b` is listed exactly when a `save` event directly follows
`batchStep b`. -/
def savesAfterBatch : List TrainEvent → List ℕ
  | TrainEvent.batchStep b :: TrainEvent.save :: rest => b :: savesAfterBatch rest
  | _ :: rest => savesAfterBatch rest
  | [] => []

/-! ## Definitions from `run/train.py`: `preprocess` (lines 67-78) -/

/-- The elementwise arithmetic of `preprocess` on one pixel value (train.py
lines 68-71): with `num_bins_x = 2 ** num_bits_x`, the value is floor-quantized
by `np.floor(image / (2 ** (8 - num_bits_x)))` when `num_bits_x < 8`, then
mapped by `image / num_bins_x - 0.5`. -/
def quantNorm (num_bits_x : ℕ) (v : ℚ) : ℚ :=
  let num_bins_x : ℚ := 2 ^ num_bits_x
  let v1 : ℚ :=
    if num_bits_x < 8 then ((Int.floor (v / 2 ^ (8 - num_bits_x)) : ℤ) : ℚ) else v
  v1 / num_bins_x - 1/2

/-- A numpy ndarray, modelled as a shape together with a total map from index
lists to rational values. -/
structure NdArray where
  shape : List ℕ
  data : List ℕ → ℚ

/-- Attribute `ndarray.ndim`: the number of axes. -/
def NdArray.ndim (a : NdArray) : ℕ := a.shape.length

/-- An elementwise (broadcast) operation on an ndarray. -/
def NdArray.map (a : NdArray) (f : ℚ → ℚ) : NdArray :=
  { shape := a.shape, data := fun idx => f (a.data idx) }

/-- Operation `image.transpose((2, 0, 1))` on a 3-dimensional HWC array: the
result at `[c, h, w]` is the argument at `[h, w, c]`. -/
def NdArray.transpose201 (a : NdArray) : NdArray :=
  { shape := [a.shape.getD 2 0, a.shape.getD 0 0, a.shape.getD 1 0]
    data := fun idx => a.data [idx.getD 1 0, idx.getD 2 0, idx.getD 0 0] }

/-- Operation `image.transpose((0, 3, 1, 2))` on a 4-dimensional NHWC array:
the result at `[i, c, h, w]` is the argument at `[i, h, w, c]`. -/
def NdArray.transpose0312 (a : NdArray) : NdArray :=
  { shape := [a.shape.getD 0 0, a.shape.getD 3 0, a.shape.getD 1 0, a.shape.getD 2 0]
    data := fun idx => a.data [idx.getD 0 0, idx.getD 2 0, idx.getD 3 0, idx.getD 1 0] }

/-- The unhandled exceptions `main` and `preprocess` can raise:
`AssertionError` from a failed `assert`, `NotImplementedError` from an
unsupported case. -/
inductive MainErr where
  | assertionError
  | notImplementedError
deriving DecidableEq, Repr

/-- Function `preprocess(image, num_bits_x)` (train.py lines 67-78):
elementwise quantization and normalization, then the channel axis is moved to
the front for 3- and 4-dimensional inputs; any other dimensionality raises
`NotImplementedError`. -/
def preprocess (image : NdArray) (num_bits_x : ℕ) : Except MainErr NdArray :=
  let image1 := image.map (quantNorm num_bits_x)
  if image1.ndim = 3 then Except.ok image1.transpose201
  else if image1.ndim = 4 then Except.ok image1.transpose0312
  else Except.error MainErr.notImplementedError

/-- A sample 3-dimensional 1×1×1 image with pixel value 200. -/
def sampleImage3 : NdArray := { shape := [1, 1, 1], data := fun _ => 200 }

/-! ## Definitions from `run/train.py`: dataset loading (lines 103-126) -/

/-- File-reading events of the dataset-loading phase: `readFile i` records
that the `i`-th globbed file was opened and read. -/
inductive LoadEvent where
  | readFile : ℕ → LoadEvent
deriving DecidableEq, Repr

/-- The dataset-loading prefix of `main` (train.py lines 103-126):
`assert args.dataset_format in ["png", "npy"]`, then each globbed file is
opened, read and preprocessed (both the `png` and the `npy` branch read every
file; file contents are abstracted to an opaque identifier per file), then
`assert len(images) > 0`.  The result is the loaded list (or the raised
`AssertionError`) together with the file-reading events that took place. -/
def loadImages (dataset_format : String) (files : List ℕ) :
    Except MainErr (List ℕ) × List LoadEvent :=
  if dataset_format = "png" ∨ dataset_format = "npy" then
    let events := files.map LoadEvent.readFile
    if 0 < files.length then (Except.ok files, events)
    else (Except.error MainErr.assertionError, events)
  else (Except.error MainErr.assertionError, [])

/-! ## Definitions from `run/train.py`: snapshot-directory creation
(lines 90-93) -/

/-- File-system errors `os.mkdir` can raise. -/
inductive FsError where
  | fileExists
  | permissionDenied
deriving DecidableEq, Repr

/-- Statement at train.py lines 90-93:
`try: os.mkdir(args.snapshot_path)` / `except: pass`.  The outcome of the
underlying `os.mkdir` call (success or a raised error) is the argument; the
value is what `main` observes after the `try` statement. -/
def mkdirSnapshotPath (mkdirResult : Except FsError Unit) : Except FsError Unit :=
  match mkdirResult with
  | Except.ok _ => Except.ok ()
  | Except.error _ => Except.ok ()

/-! ## Helper lemmas about `mu_s` -/

lemma mu_s_zero (mu_i mu_f : ℚ) (n : ℕ) (hn : 0 < n) :
    mu_s mu_i mu_f n 0 = mu_f := by
  have hn' : (0:ℚ) < n := by exact_mod_cast hn
  simp only [mu_s, Nat.zero_mod, Nat.cast_zero]
  rw [if_pos (by linarith)]
  simp

lemma mu_s_half (mu_i mu_f : ℚ) (n s : ℕ) (hn : 0 < n) (h : 2 * (s % n) = n) :
    mu_s mu_i mu_f n s = mu_i := by
  have hn' : (0:ℚ) < n := by exact_mod_cast hn
  have hn0 : (n:ℚ) ≠ 0 := ne_of_gt hn'
  have hr : ((s % n : ℕ) : ℚ) = (n : ℚ) / 2 := by
    have h2 : ((2 * (s % n) : ℕ) : ℚ) = (n : ℚ) := by
      exact_mod_cast congrArg (Nat.cast : ℕ → ℚ) h
    push_cast at h2
    linarith
  simp only [mu_s]
  rw [hr, if_neg (lt_irrefl _)]
  field_simp
  ring

lemma mu_s_eq_mu_i_iff (mu_i mu_f : ℚ) (n s : ℕ) (hn : 0 < n) (hlt : mu_f < mu_i) :
    mu_s mu_i mu_f n s = mu_i ↔ 2 * (s % n) = n := by
  have hn' : (0:ℚ) < n := by exact_mod_cast hn
  have hn0 : (n:ℚ) ≠ 0 := ne_of_gt hn'
  have hd : mu_i - mu_f ≠ 0 := sub_ne_zero.mpr (ne_of_gt hlt)
  constructor
  · intro heq
    simp only [mu_s] at heq
    by_cases hb : ((s % n : ℕ) : ℚ) < (n : ℚ) / 2
    · rw [if_pos hb] at heq
      have hz : (mu_i - mu_f) * (2 * (((s % n : ℕ) : ℚ) / n) - 1) = 0 := by
        linear_combination heq
      rcases mul_eq_zero.mp hz with hz' | hz'
      · exact absurd hz' hd
      · have : 2 * ((s % n : ℕ) : ℚ) = n := by
          field_simp at hz'
          linarith
        linarith
    · rw [if_neg hb] at heq
      have hz : (mu_i - mu_f) * (1 - 2 * (((s % n : ℕ) : ℚ) / n)) = 0 := by
        linear_combination heq
      rcases mul_eq_zero.mp hz with hz' | hz'
      · exact absurd hz' hd
      · have h2 : 2 * ((s % n : ℕ) : ℚ) = n := by
          field_simp at hz'
          linarith
        have : ((2 * (s % n) : ℕ) : ℚ) = (n : ℚ) := by push_cast; linarith
        exact_mod_cast this
  · exact mu_s_half mu_i mu_f n s hn

/-! ## Helper lemmas for the optimizer state machine -/

lemma Optimizer.update_mu_i (o : Optimizer) (s : ℕ) : (o.update s).mu_i = o.mu_i := rfl

lemma Optimizer.update_mu_f (o : Optimizer) (s : ℕ) : (o.update s).mu_f = o.mu_f := rfl

lemma Optimizer.update_n (o : Optimizer) (s : ℕ) : (o.update s).n = o.n := rfl

lemma Optimizer.update_alpha (o : Optimizer) (s : ℕ) :
    (o.update s).alpha = mu_s o.mu_i o.mu_f o.n s := rfl

lemma Optimizer.foldl_update_alpha (ss : List ℕ) (o : Optimizer) (d : ℕ)
    (h : o.alpha = mu_s o.mu_i o.mu_f o.n d) :
    (ss.foldl Optimizer.update o).alpha = mu_s o.mu_i o.mu_f o.n (ss.getLastD d) := by
  induction ss generalizing o d with
  | nil => simpa using h
  | cons a tl ih =>
      rw [List.foldl_cons, List.getLastD_cons]
      exact ih (o.update a) a rfl

/-! ## Helper lemmas for the loss computation -/

lemma nllKldLoop_eq_sum (regularize_z : Bool) (factorized : List (ℚ × ℚ))
    (a b : ℚ) :
    factorized.foldl
      (fun acc c => (acc.1 + c.1, if regularize_z then acc.2 + c.2 else acc.2))
      (a, b)
    = (a + (factorized.map Prod.fst).sum,
       b + if regularize_z then (factorized.map Prod.snd).sum else 0) := by
  induction factorized generalizing a b with
  | nil => simp
  | cons c tl ih =>
      rw [List.foldl_cons, ih]
      cases regularize_z <;> simp <;> ring_nf <;> simp [add_assoc]

/-! ## Helper lemmas for the checkpoint trace -/

lemma savesAfterBatch_cons_batch (b : ℕ) (rest : List TrainEvent)
    (h : ∀ e, rest.head? = some e → e ≠ TrainEvent.save) :
    savesAfterBatch (TrainEvent.batchStep b :: rest) = savesAfterBatch rest := by
  match rest with
  | [] => rfl
  | TrainEvent.batchStep b' :: tl => rfl
  | TrainEvent.iterSummary :: tl => rfl
  | TrainEvent.save :: tl => exact absurd rfl (h TrainEvent.save rfl)

lemma head?_flatMap_batchEvents_append (l : List ℕ) (tail : List TrainEvent)
    (h : ∀ e, tail.head? = some e → e ≠ TrainEvent.save) :
    ∀ e, ((l.flatMap batchEvents) ++ tail).head? = some e → e ≠ TrainEvent.save := by
  match l with
  | [] => simpa using h
  | b :: tl =>
      intro e he
      simp only [List.flatMap_cons, batchEvents, List.cons_append, List.head?_cons] at he
      cases he
      intro hcontra
      cases hcontra

lemma savesAfterBatch_flatMap (l : List ℕ) (tail : List TrainEvent)
    (h : ∀ e, tail.head? = some e → e ≠ TrainEvent.save) :
    savesAfterBatch ((l.flatMap batchEvents) ++ tail)
      = l.filter (fun b => (b + 1) % 100 = 0) ++ savesAfterBatch tail := by
  induction l with
  | nil => simp
  | cons b tl ih =>
      rw [List.flatMap_cons, List.append_assoc]
      by_cases hb : (b + 1) % 100 = 0
      · rw [show batchEvents b = [TrainEvent.batchStep b, TrainEvent.save] by
          simp [batchEvents, hb]]
        show savesAfterBatch (TrainEvent.batchStep b :: TrainEvent.save
            :: ((tl.flatMap batchEvents) ++ tail)) = _
        rw [savesAfterBatch, ih]
        simp [hb]
      · rw [show batchEvents b = [TrainEvent.batchStep b] by simp [batchEvents, hb]]
        show savesAfterBatch (TrainEvent.batchStep b :: ((tl.flatMap batchEvents) ++ tail)) = _
        rw [savesAfterBatch_cons_batch b _ (head?_flatMap_batchEvents_append tl tail h),
          ih]
        simp [hb]

lemma count_save_batchEvents (b : ℕ) :
    (batchEvents b).count TrainEvent.save = if (b + 1) % 100 = 0 then 1 else 0 := by
  by_cases hb : (b + 1) % 100 = 0 <;> simp [batchEvents, hb]

lemma count_save_flatMap (l : List ℕ) :
    (l.flatMap batchEvents).count TrainEvent.save
      = (l.filter (fun b => (b + 1) % 100 = 0)).length := by
  induction l with
  | nil => simp
  | cons b tl ih =>
      rw [List.flatMap_cons, List.count_append, count_save_batchEvents, ih]
      by_cases hb : (b + 1) % 100 = 0 <;> simp [hb] <;> omega

lemma length_filter_range_mod (n : ℕ) :
    ((List.range n).filter (fun b => (b + 1) % 100 = 0)).length = n / 100 := by
  induction n with
  | zero => simp
  | succ m ih =>
      rw [List.range_succ, List.filter_append, List.length_append, ih]
      by_cases hb : (m + 1) % 100 = 0 <;> simp [hb] <;> omega

lemma count_save_iterationTrace (nb : ℕ) :
    (iterationTrace nb).count TrainEvent.save = nb / 100 + 1 := by
  rw [iterationTrace, List.count_append, count_save_flatMap, length_filter_range_mod]
  rfl

lemma count_save_trainTrace (ti nb : ℕ) :
    (trainTrace ti nb).count TrainEvent.save = ti * (nb / 100 + 1) := by
  induction ti with
  | zero => simp [trainTrace]
  | succ m ih =>
      rw [trainTrace, List.range_succ, List.flatMap_append, List.count_append]
      rw [trainTrace] at ih
      rw [ih]
      simp [count_save_iterationTrace]
      ring

/-! ## Helper lemmas for `preprocess` -/

lemma NdArray.ndim_map (a : NdArray) (f : ℚ → ℚ) : (a.map f).ndim = a.ndim := rfl

lemma quantNorm_bounds (num_bits_x : ℕ) (v : ℚ) (h0 : 0 ≤ v) (h256 : v < 256)
    (hk8 : num_bits_x ≤ 8) :
    -(1/2) ≤ quantNorm num_bits_x v ∧ quantNorm num_bits_x v < 1/2 := by
  have hbins : (0:ℚ) < 2 ^ num_bits_x := by positivity
  simp only [quantNorm]
  by_cases hk : num_bits_x < 8
  · rw [if_pos hk]
    have hdiv : (0:ℚ) < 2 ^ (8 - num_bits_x) := by positivity
    have hx0 : (0:ℚ) ≤ v / 2 ^ (8 - num_bits_x) := div_nonneg h0 hdiv.le
    have hfl0 : (0:ℚ) ≤ ((Int.floor (v / 2 ^ (8 - num_bits_x)) : ℤ) : ℚ) := by
      exact_mod_cast Int.floor_nonneg.mpr hx0
    have hpow : (2:ℚ) ^ num_bits_x * 2 ^ (8 - num_bits_x) = 256 := by
      rw [← pow_add]
      norm_num [Nat.add_sub_cancel' hk.le]
    have hxlt : v / 2 ^ (8 - num_bits_x) < 2 ^ num_bits_x := by
      rw [div_lt_iff₀ hdiv]
      linarith [hpow]
    have hfllt : ((Int.floor (v / 2 ^ (8 - num_bits_x)) : ℤ) : ℚ) < 2 ^ num_bits_x := by
      calc ((Int.floor (v / 2 ^ (8 - num_bits_x)) : ℤ) : ℚ)
          ≤ v / 2 ^ (8 - num_bits_x) := Int.floor_le _
        _ < 2 ^ num_bits_x := hxlt
    constructor
    · have : (0:ℚ) ≤ ((Int.floor (v / 2 ^ (8 - num_bits_x)) : ℤ) : ℚ) / 2 ^ num_bits_x :=
        div_nonneg hfl0 hbins.le
      linarith
    · have : ((Int.floor (v / 2 ^ (8 - num_bits_x)) : ℤ) : ℚ) / 2 ^ num_bits_x < 1 :=
        (div_lt_one hbins).mpr hfllt
      linarith
  · rw [if_neg hk]
    push_neg at hk
    have h256le : (256:ℚ) ≤ 2 ^ num_bits_x := by
      calc (256:ℚ) = 2 ^ 8 := by norm_num
        _ ≤ 2 ^ num_bits_x := by
            exact_mod_cast pow_le_pow_right₀ (by norm_num : (1:ℚ) ≤ 2) hk
    constructor
    · have : (0:ℚ) ≤ v / 2 ^ num_bits_x := div_nonneg h0 hbins.le
      linarith
    · have : v / 2 ^ num_bits_x < 1 := (div_lt_one hbins).mpr (by linarith)
      linarith

/-! ## The claims -/

/-- C1: `Optimizer.mu_s` is a triangular wave.  Writing `r = s % n`, the value
is `mu_f + (mu_i - mu_f) * 2 * (r / n)` on the increasing half `r < n / 2` and
`mu_f + (mu_i - mu_f) * 2 * (1 - r / n)` on the decreasing half `r ≥ n / 2`;
in particular `mu_s 0 = mu_f`, and at `r = n / 2` (that is, when
`2 * (s % n) = n`) the value is `mu_i`. -/
theorem mu_s_triangular_wave (mu_i mu_f : ℚ) (n s : ℕ) (hn : 0 < n) :
    (((s % n : ℕ) : ℚ) < (n : ℚ) / 2 →
      mu_s mu_i mu_f n s = mu_f + (mu_i - mu_f) * 2 * (((s % n : ℕ) : ℚ) / (n : ℚ))) ∧
    ((n : ℚ) / 2 ≤ ((s % n : ℕ) : ℚ) →
      mu_s mu_i mu_f n s = mu_f + (mu_i - mu_f) * 2 * (1 - ((s % n : ℕ) : ℚ) / (n : ℚ))) ∧
    mu_s mu_i mu_f n 0 = mu_f ∧
    (2 * (s % n) = n → mu_s mu_i mu_f n s = mu_i) := by
  refine ⟨?_, ?_, mu_s_zero mu_i mu_f n hn, mu_s_half mu_i mu_f n s hn⟩
  · intro h
    simp only [mu_s]
    rw [if_pos h]
  · intro h
    simp only [mu_s]
    rw [if_neg (not_lt.mpr h)]

/-- Witness for C1 at `mu_i = 3`, `mu_f = 1`, `n = 4`: the schedule starts at
`mu_f` and reaches `mu_i` at the half cycle `s = 2`. -/
theorem mu_s_triangular_wave_witness :
    mu_s 3 1 4 0 = 1 ∧ mu_s 3 1 4 2 = 3 := by
  have h0 := mu_s_triangular_wave 3 1 4 0 (by decide)
  have h2 := mu_s_triangular_wave 3 1 4 2 (by decide)
  exact ⟨h0.2.2.1, h2.2.2.2 (by decide)⟩

/-- C2: the schedule is cyclical with period `n`, symmetric within one cycle
(`mu_s s = mu_s (n - s)` for `0 < s < n`), and bounded between `mu_f` and
`mu_i` whenever `mu_f ≤ mu_i`. -/
theorem mu_s_cyclic_symmetric_bounded (mu_i mu_f : ℚ) (n s : ℕ) (hn : 0 < n) :
    mu_s mu_i mu_f n (s + n) = mu_s mu_i mu_f n s ∧
    (0 < s → s < n → mu_s mu_i mu_f n s = mu_s mu_i mu_f n (n - s)) ∧
    (mu_f ≤ mu_i → mu_f ≤ mu_s mu_i mu_f n s ∧ mu_s mu_i mu_f n s ≤ mu_i) := by
  have hn' : (0:ℚ) < n := by exact_mod_cast hn
  have hn0 : (n:ℚ) ≠ 0 := ne_of_gt hn'
  refine ⟨?_, ?_, ?_⟩
  · simp only [mu_s, Nat.add_mod_right]
  · intro hs0 hsn
    have h1 : s % n = s := Nat.mod_eq_of_lt hsn
    have h2 : (n - s) % n = n - s := Nat.mod_eq_of_lt (by omega)
    simp only [mu_s, h1, h2]
    rw [Nat.cast_sub hsn.le]
    rcases lt_or_le ((s : ℚ)) ((n : ℚ) / 2) with h | h
    · rw [if_pos h, if_neg (not_lt.mpr (by linarith))]
      field_simp
    · rw [if_neg (not_lt.mpr h)]
      rcases lt_or_le ((n : ℚ) - (s : ℚ)) ((n : ℚ) / 2) with h2' | h2'
      · rw [if_pos h2']
        field_simp
      · rw [if_neg (not_lt.mpr h2')]
        have hs_eq : (s : ℚ) = (n : ℚ) / 2 := by linarith
        rw [hs_eq]
        ring_nf
  · intro hle
    have hd : (0:ℚ) ≤ mu_i - mu_f := by linarith
    have hrn : s % n < n := Nat.mod_lt s hn
    have hr' : ((s % n : ℕ) : ℚ) < (n : ℚ) := by exact_mod_cast hrn
    have hr0 : (0:ℚ) ≤ ((s % n : ℕ) : ℚ) := Nat.cast_nonneg _
    have hq0 : (0:ℚ) ≤ ((s % n : ℕ) : ℚ) / (n : ℚ) := div_nonneg hr0 hn'.le
    have hq1 : ((s % n : ℕ) : ℚ) / (n : ℚ) < 1 := (div_lt_one hn').mpr hr'
    simp only [mu_s]
    split_ifs with h
    · have hq2 : ((s % n : ℕ) : ℚ) / (n : ℚ) < 1 / 2 := by
        rw [div_lt_div_iff₀ hn' (by positivity)]
        linarith
      constructor
      · nlinarith [mul_nonneg hd hq0]
      · nlinarith [mul_le_mul_of_nonneg_left hq2.le hd]
    · push_neg at h
      have hq2 : 1 / 2 ≤ ((s % n : ℕ) : ℚ) / (n : ℚ) := by
        rw [div_le_div_iff₀ (by positivity) hn']
        linarith
      constructor
      · nlinarith [mul_nonneg hd (by linarith : (0:ℚ) ≤ 1 - ((s % n : ℕ) : ℚ) / (n : ℚ))]
      · nlinarith [mul_le_mul_of_nonneg_left
          (by linarith : 1 - ((s % n : ℕ) : ℚ) / (n : ℚ) ≤ 1 / 2) hd]

/-- Witness for C2 at `mu_i = 3`, `mu_f = 1`, `n = 4`, `s = 1`: periodicity,
symmetry about the half cycle, and the bounds. -/
theorem mu_s_cyclic_symmetric_bounded_witness :
    mu_s 3 1 4 5 = mu_s 3 1 4 1 ∧ mu_s 3 1 4 1 = mu_s 3 1 4 3 ∧
    (1:ℚ) ≤ mu_s 3 1 4 1 ∧ mu_s 3 1 4 1 ≤ 3 := by
  have h := mu_s_cyclic_symmetric_bounded 3 1 4 1 (by decide)
  exact ⟨h.1, h.2.1 (by decide) (by decide), (h.2.2 (by simp)).1, (h.2.2 (by simp)).2⟩

/-- C3: the per-batch loss is the negative log-likelihood plus optional
KL-divergence regularization: writing `nll` for the sum of the `gaussian_nll`
values over the factorized components and `kld` for the sum of the
`gaussian_kl_divergence` values, the loss equals
`((nll + kld) / batch_size - logdet) / (ln2 * num_pixels)` with
`logdet = logdet_fwd - lnNumBins * num_pixels`, where `kld` is the full sum
when `--regularize_z` is set and exactly `0` when it is not. -/
theorem batchLoss_formula (regularize_z : Bool) (factorized : List (ℚ × ℚ))
    (logdet_fwd batch_size num_pixels ln2 lnNumBins : ℚ) :
    batchLoss regularize_z factorized logdet_fwd batch_size num_pixels ln2 lnNumBins
      = (((factorized.map Prod.fst).sum
            + (if regularize_z then (factorized.map Prod.snd).sum else 0))
              / batch_size
          - (logdet_fwd - lnNumBins * num_pixels))
        / (ln2 * num_pixels) := by
  simp only [batchLoss, nllKldLoop, nllKldLoop_eq_sum, zero_add]

/-- C4: `Optimizer.update(training_step)` performs, in this order, one step of
the wrapped Adam optimizer and then the write of `mu_s(training_step)` into the
learning rate; after construction the learning rate is `mu_s 0`, a single
`update s` leaves the learning rate at `mu_s s` (and advances Adam by exactly
one step), and after any sequence of calls `update s₁, ..., update sₖ` starting
from a freshly constructed optimizer the learning rate is `mu_s sₖ` (read
`mu_s 0` for the empty sequence). -/
theorem optimizer_update_order_and_learning_rate (mu_i mu_f : ℚ) (n : ℕ)
    (o : Optimizer) (s : ℕ) (ss : List ℕ) :
    (Optimizer.construct mu_i mu_f n).alpha = mu_s mu_i mu_f n 0 ∧
    o.updateEvents s = [OptEvent.adamUpdate,
      OptEvent.setAlpha (mu_s o.mu_i o.mu_f o.n s)] ∧
    (o.update s).adamSteps = o.adamSteps + 1 ∧
    (o.update s).alpha = mu_s o.mu_i o.mu_f o.n s ∧
    (ss.foldl Optimizer.update (Optimizer.construct mu_i mu_f n)).alpha
      = mu_s mu_i mu_f n (ss.getLastD 0) :=
  ⟨rfl, rfl, rfl, rfl,
    Optimizer.foldl_update_alpha ss (Optimizer.construct mu_i mu_f n) 0 rfl⟩

/-- C5: checkpointing is periodic.  In the trace of one training iteration, a
`save` immediately follows the processing of batch `b` exactly when
`(b + 1) % 100 = 0`; the iteration's trace ends with one further `save`
(after the summary print); the total number of `save` events per iteration is
`num_batches / 100 + 1` — so those are the only checkpoints — and over the
whole training loop it is `total_iteration * (num_batches / 100 + 1)`. -/
theorem checkpoint_schedule (total_iteration num_batches : ℕ) :
    savesAfterBatch (iterationTrace num_batches)
      = (List.range num_batches).filter (fun b => (b + 1) % 100 = 0) ∧
    (iterationTrace num_batches).getLast? = some TrainEvent.save ∧
    (iterationTrace num_batches).count TrainEvent.save = num_batches / 100 + 1 ∧
    (trainTrace total_iteration num_batches).count TrainEvent.save
      = total_iteration * (num_batches / 100 + 1) := by
  refine ⟨?_, ?_, count_save_iterationTrace num_batches,
    count_save_trainTrace total_iteration num_batches⟩
  · have h0 : savesAfterBatch [TrainEvent.iterSummary, TrainEvent.save] = [] := rfl
    rw [iterationTrace,
      savesAfterBatch_flatMap _ _ (by intro e he hc; cases he; cases hc), h0,
      List.append_nil]
  · rw [iterationTrace, List.getLast?_append]
    rfl

/-- C6: `preprocess` normalizes raw images: for 3- or 4-dimensional input with
pixel values in `[0, 256)` and `1 ≤ num_bits_x ≤ 8`, every output value lies
in `[-1/2, 1/2)` (each pixel is floor-quantized and normalized by
`quantNorm`), and the channel axis is moved from last to first
(HWC → CHW, NHWC → NCHW). -/
theorem preprocess_normalizes (image : NdArray) (num_bits_x : ℕ)
    (hk1 : 1 ≤ num_bits_x) (hk8 : num_bits_x ≤ 8)
    (hv : ∀ idx, 0 ≤ image.data idx ∧ image.data idx < 256) :
    (∀ b, preprocess image num_bits_x = Except.ok b →
      ∀ idx, -(1/2) ≤ b.data idx ∧ b.data idx < 1/2) ∧
    (image.ndim = 3 →
      preprocess image num_bits_x
        = Except.ok ((image.map (quantNorm num_bits_x)).transpose201) ∧
      ((image.map (quantNorm num_bits_x)).transpose201).shape
        = [image.shape.getD 2 0, image.shape.getD 0 0, image.shape.getD 1 0] ∧
      ∀ c h w, ((image.map (quantNorm num_bits_x)).transpose201).data [c, h, w]
        = quantNorm num_bits_x (image.data [h, w, c])) ∧
    (image.ndim = 4 →
      preprocess image num_bits_x
        = Except.ok ((image.map (quantNorm num_bits_x)).transpose0312) ∧
      ((image.map (quantNorm num_bits_x)).transpose0312).shape
        = [image.shape.getD 0 0, image.shape.getD 3 0,
           image.shape.getD 1 0, image.shape.getD 2 0] ∧
      ∀ i c h w, ((image.map (quantNorm num_bits_x)).transpose0312).data [i, c, h, w]
        = quantNorm num_bits_x (image.data [i, h, w, c])) := by
  refine ⟨?_, ?_, ?_⟩
  · intro b hb idx
    simp only [preprocess, NdArray.ndim_map] at hb
    by_cases h3 : image.ndim = 3
    · rw [if_pos h3] at hb
      cases hb
      exact quantNorm_bounds num_bits_x _ (hv _).1 (hv _).2 hk8
    · rw [if_neg h3] at hb
      by_cases h4 : image.ndim = 4
      · rw [if_pos h4] at hb
        cases hb
        exact quantNorm_bounds num_bits_x _ (hv _).1 (hv _).2 hk8
      · rw [if_neg h4] at hb
        cases hb
  · intro h3
    refine ⟨?_, rfl, fun c h w => rfl⟩
    simp only [preprocess, NdArray.ndim_map]
    rw [if_pos h3]
  · intro h4
    refine ⟨?_, rfl, fun i c h w => rfl⟩
    simp only [preprocess, NdArray.ndim_map]
    by_cases h3 : image.ndim = 3
    · omega
    · rw [if_neg h3, if_pos h4]

/-- Witness for C6 on `sampleImage3` (a 1×1×1 image with value 200) at
`num_bits_x = 8`: `preprocess` succeeds with the transposed normalized array
and the output pixel lies in `[-1/2, 1/2)`. -/
theorem preprocess_normalizes_witness :
    preprocess sampleImage3 8 = Except.ok ((sampleImage3.map (quantNorm 8)).transpose201) ∧
    -(1/2) ≤ ((sampleImage3.map (quantNorm 8)).transpose201).data [0, 0, 0] ∧
    ((sampleImage3.map (quantNorm 8)).transpose201).data [0, 0, 0] < 1/2 := by
  have h := preprocess_normalizes sampleImage3 8 (by decide) (by decide)
    (fun _ => ⟨(by decide : (0:ℚ) ≤ 200), (by decide : (200:ℚ) < 256)⟩)
  exact ⟨(h.2.1 rfl).1, (h.1 _ (h.2.1 rfl).1 [0, 0, 0]).1, (h.1 _ (h.2.1 rfl).1 [0, 0, 0]).2⟩

/-- C7 counterexample: the claim that `main` never suppresses a file-I/O error
and that an exception raised while creating the snapshot directory propagates
to the caller is false: the bare `except: pass` around `os.mkdir` swallows
a raised `PermissionError`, and `main` proceeds normally. -/
theorem mkdir_error_propagation_counterexample :
    mkdirSnapshotPath (Except.error FsError.permissionDenied) = Except.ok () ∧
    mkdirSnapshotPath (Except.error FsError.permissionDenied)
      ≠ Except.error FsError.permissionDenied := by
  exact ⟨rfl, fun h => Except.noConfusion h⟩

/-- C7 amended: every exception raised while creating the snapshot directory
is caught and suppressed by the bare `try/except: pass` in `main`; after the
`try` statement `main` always observes success. -/
theorem mkdir_error_always_suppressed (mkdirResult : Except FsError Unit) :
    mkdirSnapshotPath mkdirResult = Except.ok () := by
  cases mkdirResult <;> rfl

/-- C8: for any `--dataset-format` other than `"png"` or `"npy"`, the loading
phase raises `AssertionError` before reading any image file (no `readFile`
event); and for an empty glob result it raises `AssertionError` (before any
training) whatever the format. -/
theorem dataset_format_assertions (dataset_format : String) (files : List ℕ) :
    (dataset_format ≠ "png" → dataset_format ≠ "npy" →
      loadImages dataset_format files = (Except.error MainErr.assertionError, [])) ∧
    loadImages dataset_format [] = (Except.error MainErr.assertionError, []) := by
  constructor
  · intro h1 h2
    simp only [loadImages]
    rw [if_neg (by tauto)]
  · by_cases h : dataset_format = "png" ∨ dataset_format = "npy"
    · simp [loadImages, h]
    · simp [loadImages, h]

/-- Witness for C8: format `"jpg"` is rejected without reading the two
available files, and an empty `"png"` glob is rejected as well. -/
theorem dataset_format_assertions_witness :
    loadImages "jpg" [0, 1] = (Except.error MainErr.assertionError, []) ∧
    loadImages "png" [] = (Except.error MainErr.assertionError, []) := by
  have h := dataset_format_assertions "jpg" [0, 1]
  have h2 := dataset_format_assertions "png" []
  exact ⟨h.1 (by decide) (by decide), h2.2⟩

/-- C9: `preprocess` raises `NotImplementedError` exactly when the input array
has a number of dimensions other than 3 or 4, and returns normally for every
3- or 4-dimensional input. -/
theorem preprocess_ndim_dispatch (image : NdArray) (num_bits_x : ℕ) :
    (preprocess image num_bits_x = Except.error MainErr.notImplementedError
      ↔ ¬(image.ndim = 3 ∨ image.ndim = 4)) ∧
    ((∃ b, preprocess image num_bits_x = Except.ok b)
      ↔ (image.ndim = 3 ∨ image.ndim = 4)) := by
  simp only [preprocess, NdArray.ndim_map]
  by_cases h3 : image.ndim = 3
  · rw [if_pos h3]
    constructor
    · simp [h3]
    · exact ⟨fun _ => Or.inl h3, fun _ => ⟨_, rfl⟩⟩
  · rw [if_neg h3]
    by_cases h4 : image.ndim = 4
    · rw [if_pos h4]
      constructor
      · simp [h4]
      · exact ⟨fun _ => Or.inr h4, fun _ => ⟨_, rfl⟩⟩
    · rw [if_neg h4]
      constructor
      · simp [h3, h4]
      · constructor
        · rintro ⟨b, hb⟩
          cases hb
        · rintro (h | h) <;> [exact absurd h h3; exact absurd h h4]

/-- C10: training starts at the minimum learning rate: the Adam optimizer is
constructed with `mu_s 0 = mu_f` (in particular, with the default parameters,
at `default_mu_f = 1e-4`, which is strictly below `default_mu_i = 3e-3`), and
for `mu_f < mu_i` the value `mu_i` is attained exactly at the midpoint of a
cycle, i.e. exactly when `2 * (s % n) = n`. -/
theorem training_starts_at_mu_f (mu_i mu_f : ℚ) (n : ℕ) (hn : 0 < n)
    (hlt : mu_f < mu_i) :
    (Optimizer.construct mu_i mu_f n).alpha = mu_f ∧
    (Optimizer.construct default_mu_i default_mu_f default_n).alpha = default_mu_f ∧
    default_mu_f < default_mu_i ∧
    (Optimizer.construct default_mu_i default_mu_f default_n).alpha ≠ default_mu_i ∧
    (∀ s : ℕ, mu_s mu_i mu_f n s = mu_i ↔ 2 * (s % n) = n) := by
  have hdef : (Optimizer.construct default_mu_i default_mu_f default_n).alpha
      = default_mu_f := by
    show mu_s default_mu_i default_mu_f default_n 0 = default_mu_f
    exact mu_s_zero _ _ _ (by decide)
  have hdlt : default_mu_f < default_mu_i := by
    norm_num [default_mu_f, default_mu_i]
  refine ⟨?_, hdef, hdlt, ?_, fun s => mu_s_eq_mu_i_iff mu_i mu_f n s hn hlt⟩
  · show mu_s mu_i mu_f n 0 = mu_f
    exact mu_s_zero _ _ _ hn
  · rw [hdef]
    exact ne_of_lt hdlt

/-- Witness for C10 at `mu_i = 3`, `mu_f = 1`, `n = 4`: the freshly constructed
optimizer carries learning rate `mu_f = 1`, and `mu_i = 3` is attained at the
midpoint `s = 2`. -/
theorem training_starts_at_mu_f_witness :
    (Optimizer.construct 3 1 4).alpha = 1 ∧ mu_s 3 1 4 2 = 3 := by
  have h := training_starts_at_mu_f 3 1 4 (by decide) (by simp)
  exact ⟨h.1, (h.2.2.2.2 2).mpr (by decide)⟩
